import Mathlib

/-!
Verification of the pamenlarge image-scaling program (netpbm).

The definitions below are a shallow embedding of `src/editor/pamenlarge.c`.
Packed PBM row buffers are modelled as total functions `Nat → Nat` from byte
index to byte value (a C `unsigned char *`); rows that are materialized and
written to the output stream are modelled as `List Nat`.  All machine
arithmetic is on `Nat` with explicit masks (`&&& 0xFF`, `% 256`) exactly where
the C code masks or converts to `unsigned char`.
-/

set_option maxRecDepth 100000

namespace Pamenlarge

/-- pbm_packed_bytes(cols) = (cols + 7) / 8 : bytes in a packed row. -/
def pbm_packed_bytes (cols : Nat) : Nat := (cols + 7) / 8

/-- INT_MAX for the 32-bit `int` the program is compiled with. -/
def INT_MAX : Nat := 2147483647

/-- `maxWidthHeight` from validateComputableDimensions: INT_MAX - 2. -/
def maxWidthHeight : Nat := INT_MAX - 2

/-- validateComputableDimensions (pamenlarge.c lines 75-92); `true` means the
check passes, `false` means the pm_error("Scale factor too large...") path. -/
def validateComputableDimensions (width height scaleFactor : Nat) : Bool :=
  decide (scaleFactor ≤ maxWidthHeight / max height width)

/-- Table `dbl` of enlargePbmRowHorizontally. -/
def dbl : List Nat :=
  [0x00, 0x03, 0x0C, 0x0F, 0x30, 0x33, 0x3C, 0x3F,
   0xC0, 0xC3, 0xCC, 0xCF, 0xF0, 0xF3, 0xFC, 0xFF]

/-- Table `trp1` of enlargePbmRowHorizontally. -/
def trp1 : List Nat := [0x00, 0x03, 0x1C, 0x1F, 0xE0, 0xE3, 0xFC, 0xFF]

/-- Table `trp2` of enlargePbmRowHorizontally. -/
def trp2 : List Nat :=
  [0x00, 0x01, 0x0E, 0x0F, 0x70, 0x71, 0x7E, 0x7F,
   0x80, 0x81, 0x8E, 0x8F, 0xF0, 0xF1, 0xFE, 0xFF]

/-- Table `trp3` of enlargePbmRowHorizontally. -/
def trp3 : List Nat := [0x00, 0x07, 0x38, 0x3F, 0xC0, 0xC7, 0xF8, 0xFF]

/-- Table `quin2` of enlargePbmRowHorizontally. -/
def quin2 : List Nat := [0x00, 0x01, 0x3E, 0x3F, 0xC0, 0xC1, 0xFE, 0xFF]

/-- Table `quin4` of enlargePbmRowHorizontally. -/
def quin4 : List Nat := [0x00, 0x03, 0x7C, 0x7F, 0x80, 0x83, 0xFC, 0xFF]

/-- Table `pair` (unsigned int entries) of enlargePbmRowHorizontally. -/
def pair : List Nat := [0x0000, 0x00FF, 0xFF00, 0xFFFF]

/-- The `case 4: default:` body of enlargePbmRowHorizontally (lines 153-177):
value of output byte `colChar` computed from a single inrow byte.  `mod`,
`bit` and `offset` are exactly the C locals; the two branches are the
whole-byte fill (offset >= 8) and the two-source-bit `pair` lookup. -/
def generalOutByte (mult : Nat) (inrow : Nat → Nat) (colChar : Nat) : Nat :=
  let mod := colChar % mult
  let bit := mod * 8 / mult
  let offset := mult - mod * 8 % mult
  if 8 ≤ offset then
    ((inrow (colChar / mult) >>> (7 - bit)) &&& 0x01) * 0xFF
  else
    (pair.getD ((inrow (colChar / mult) >>> (6 - bit)) &&& 0x03) 0 >>> offset) &&& 0xFF

/-- enlargePbmRowHorizontally (pamenlarge.c lines 96-179).  The C routine
fills the buffer `outrow`; we model the resulting buffer contents as a
function of the byte index `j`.  Each loop iteration `colChar` of the C code
writes bytes `colChar*factor .. colChar*factor+factor-1`, so the byte at
index `j` is written by iteration `j / factor` with sub-index `j % factor`;
indices the loop never writes keep the previous `outrow` contents.  The
factor-5 stores go through an `unsigned char` conversion of an
`unsigned int` expression, hence the `% 256`.  The `inpamP` argument of the
C function is unused there and dropped here. -/
def enlargePbmRowHorizontally (inrow : Nat → Nat)
    (inColChars outColChars scaleFactor : Nat) (outrow : Nat → Nat) :
    Nat → Nat :=
  if scaleFactor = 1 then outrow
  else if scaleFactor = 2 then fun j =>
    if j < 2 * inColChars then
      if j % 2 = 0 then dbl.getD ((inrow (j / 2) &&& 0xF0) >>> 4) 0
      else dbl.getD (inrow (j / 2) &&& 0x0F) 0
    else outrow j
  else if scaleFactor = 3 then fun j =>
    if j < 3 * inColChars then
      if j % 3 = 0 then trp1.getD ((inrow (j / 3) &&& 0xF0) >>> 5) 0
      else if j % 3 = 1 then trp2.getD ((inrow (j / 3) >>> 2) &&& 0x0F) 0
      else trp3.getD (inrow (j / 3) &&& 0x07) 0
    else outrow j
  else if scaleFactor = 5 then fun j =>
    if j < 5 * inColChars then
      if j % 5 = 0 then (pair.getD ((inrow (j / 5) >>> 6) &&& 0x03) 0 >>> 5) % 256
      else if j % 5 = 1 then quin2.getD ((inrow (j / 5) >>> 4) &&& 0x07) 0
      else if j % 5 = 2 then (pair.getD ((inrow (j / 5) >>> 3) &&& 0x03) 0 >>> 4) % 256
      else if j % 5 = 3 then quin4.getD ((inrow (j / 5) >>> 1) &&& 0x07) 0
      else (pair.getD (inrow (j / 5) &&& 0x03) 0 >>> 3) % 256
    else outrow j
  else fun j =>
    if j < outColChars then generalOutByte scaleFactor inrow j else outrow j

/-- The padding cleanup of enlargePbm (lines 217-220): if width is not a
multiple of 8, the final partial byte of the freshly read row has its low
`8 - width % 8` bits zeroed in place. -/
def cleanRowF (width : Nat) (row : Nat → Nat) : Nat → Nat :=
  if width % 8 > 0 then fun i =>
    if i = pbm_packed_bytes width - 1 then
      row i >>> (8 - width % 8) <<< (8 - width % 8)
    else row i
  else row

/-- One iteration of the row loop of enlargePbm (lines 211-227): clean the
input row, run enlargePbmRowHorizontally into the output buffer (which for
scaleFactor 1 is the input row buffer itself, line 200-201), and materialize
the `outColChars` bytes that pbm_writepbmrow_packed sends to the stream. -/
def transformPbmRow (width scaleFactor : Nat) (row outInit : Nat → Nat) :
    List Nat :=
  let inrow := cleanRowF width row
  let inColChars := pbm_packed_bytes width
  let outColChars := pbm_packed_bytes (width * scaleFactor)
  let outrow := if scaleFactor = 1 then inrow else outInit
  (List.range outColChars).map
    (enlargePbmRowHorizontally inrow inColChars outColChars scaleFactor outrow)

/-- The sequence of raster rows enlargePbm writes (lines 211-227): every
transformed input row is written `scaleFactor` times.  `outInit` is the
initial contents of the allocated output buffer. -/
def enlargePbm (width scaleFactor : Nat) (outInit : Nat → Nat)
    (inRows : List (Nat → Nat)) : List (List Nat) :=
  (inRows.map
    (fun r => List.replicate scaleFactor (transformPbmRow width scaleFactor r outInit))).flatten

/-- Observable output actions of a run on a PBM input. -/
inductive PbmEvent where
  | header (cols rows : Nat)
  | row (bytes : List Nat)
  | fatal
  deriving DecidableEq

/-- The output trace of main on a PBM image (lines 277-305 with enlargePbm):
validateComputableDimensions runs before any output; on failure pm_error
terminates the program, otherwise the header is written followed by the
enlarged rows. -/
def mainPbm (width height scaleFactor : Nat) (outInit : Nat → Nat)
    (inRows : List (Nat → Nat)) : List PbmEvent :=
  if maxWidthHeight / max height width < scaleFactor then [PbmEvent.fatal]
  else
    PbmEvent.header (width * scaleFactor) (height * scaleFactor) ::
      (enlargePbm width scaleFactor outInit inRows).map PbmEvent.row

/-- The row makeOutputRowMap + pnm_writepamrowmult produce for one input row
on the generic path (lines 49-71 and 265-268): output column `j` aliases
input column `j / (outpamWidth / inpamWidth)`. -/
def transformGeneralRow {α : Type} (width scaleFactor : Nat) (row : Nat → α) :
    List α :=
  (List.range (width * scaleFactor)).map
    (fun j => row (j / (width * scaleFactor / width)))

/-- The sequence of rows enlargeGeneral writes (lines 237-273): each input
row is transformed through the column map and written `scaleFactor` times by
pnm_writepamrowmult. -/
def enlargeGeneral {α : Type} (width scaleFactor : Nat)
    (inRows : List (Nat → α)) : List (List α) :=
  (inRows.map
    (fun r => List.replicate scaleFactor (transformGeneralRow width scaleFactor r))).flatten

/-- C conversion of a (32-bit) `int` value to `unsigned int`. -/
def intToUnsigned (v : Int) : Nat := (v % (4294967296 : Int)).toNat

/-- The scale-factor handling of parseCommandLine (lines 31-44):
`cmdlineP->scaleFactor = atoi(argv[1])` stores the int value into an
`unsigned int` field, and the `< 1` test is done on that unsigned value.
`argValue` is the `int` result of atoi. -/
def parseScaleFactorArg (argValue : Int) : Except String Nat :=
  let scaleFactor := intToUnsigned argValue
  if scaleFactor < 1 then
    Except.error "Scale factor must be an integer at least 1"
  else Except.ok scaleFactor

/-- Bit `i` (most-significant-bit first across bytes) of a packed row given
as a byte function. -/
def rowBitF (row : Nat → Nat) (i : Nat) : Bool :=
  Nat.testBit (row (i / 8)) (7 - i % 8)

/-- Bit `i` (most-significant-bit first) of a materialized packed row. -/
def bitOfList (bytes : List Nat) (i : Nat) : Bool :=
  Nat.testBit (bytes.getD (i / 8) 0) (7 - i % 8)

/-- The byte with the given eight bits, most significant first. -/
def byteOfBits8 (b0 b1 b2 b3 b4 b5 b6 b7 : Bool) : Nat :=
  (cond b0 128 0) + (cond b1 64 0) + (cond b2 32 0) + (cond b3 16 0) +
  (cond b4 8 0) + (cond b5 4 0) + (cond b6 2 0) + (cond b7 1 0)

/-- The byte whose bit at most-significant-first position `t` is `g t`. -/
def byteOfBits (g : Nat → Bool) : Nat :=
  byteOfBits8 (g 0) (g 1) (g 2) (g 3) (g 4) (g 5) (g 6) (g 7)

/-- Modelled from the spec: the naive per-bit replication reference.  Output
bit `j` of enlarging a width-`w` row by `f` is input bit `j / f` repeated
`f` consecutive times, most-significant-bit first; the `w*f`-bit output
stream is padded with 0 bits to a whole byte. -/
def naiveBit (w f : Nat) (row : Nat → Nat) (j : Nat) : Bool :=
  if j < w * f then rowBitF row (j / f) else false

/-- Modelled from the spec: byte `c` of the naive per-bit replication
reference output. -/
def naiveByte (w f : Nat) (row : Nat → Nat) (c : Nat) : Nat :=
  byteOfBits (fun t => naiveBit w f row (8 * c + t))

/-- A sample 8-pixel packed row with bit pattern 10110000 (spec scenario). -/
def testRowB0 : Nat → Nat := fun i => if i = 0 then 0xB0 else 0

/-- A sample 1-pixel packed row holding a single black pixel. -/
def testRow80 : Nat → Nat := fun i => if i = 0 then 0x80 else 0

/-! ### Utility lemmas -/

theorem testRowB0_pad : ∀ i, 8 ≤ i → rowBitF testRowB0 i = false := by
  intro i hi
  unfold rowBitF testRowB0
  rw [if_neg (by omega)]
  simp

theorem testRow80_pad : ∀ i, 1 ≤ i → rowBitF testRow80 i = false := by
  intro i hi
  unfold rowBitF testRow80
  by_cases h8 : i < 8
  · interval_cases i <;> decide
  · rw [if_neg (by omega)]
    simp

theorem getD_range_map (g : Nat → Nat) (n i : Nat) (h : i < n) :
    ((List.range n).map g).getD i 0 = g i := by
  rw [List.getD_eq_getElem?_getD, List.getElem?_map, List.getElem?_range h]
  rfl

theorem and_one_eq_toNat (x k : Nat) :
    (x >>> k) &&& 1 = (Nat.testBit x k).toNat := by
  rw [Nat.and_one_is_mod, Nat.shiftRight_eq_div_pow, Nat.testBit_to_div_mod]
  rcases Nat.mod_two_eq_zero_or_one (x / 2 ^ k) with h | h <;> simp [h]

theorem and_three_eq (x k : Nat) :
    (x >>> k) &&& 3 =
      2 * (Nat.testBit x (k + 1)).toNat + (Nat.testBit x k).toNat := by
  have h3 : (x >>> k) &&& 3 = x / 2 ^ k % 4 := by
    have h := Nat.and_pow_two_sub_one_eq_mod (x >>> k) 2
    norm_num at h
    rw [h, Nat.shiftRight_eq_div_pow]
  have hx : x / 2 ^ (k + 1) = x / 2 ^ k / 2 := by
    rw [Nat.pow_succ, ← Nat.div_div_eq_div_mul]
  rw [h3, Nat.testBit_to_div_mod, Nat.testBit_to_div_mod, hx]
  rcases Nat.mod_two_eq_zero_or_one (x / 2 ^ k) with h | h <;>
    rcases Nat.mod_two_eq_zero_or_one (x / 2 ^ k / 2) with h2 | h2 <;>
      simp only [h, h2] <;> norm_num <;> omega

theorem byteOfBits8_testBit :
    ∀ (b0 b1 b2 b3 b4 b5 b6 b7 : Bool) (t : Nat), t < 8 →
      Nat.testBit (byteOfBits8 b0 b1 b2 b3 b4 b5 b6 b7) (7 - t) =
      [b0, b1, b2, b3, b4, b5, b6, b7].getD t false := by decide

theorem testBit_byteOfBits (g : Nat → Bool) (t : Nat) (ht : t < 8) :
    Nat.testBit (byteOfBits g) (7 - t) = g t := by
  have h := byteOfBits8_testBit (g 0) (g 1) (g 2) (g 3) (g 4) (g 5) (g 6) (g 7) t ht
  rw [byteOfBits, h]
  interval_cases t <;> rfl

theorem byteOfBits_congr {g g' : Nat → Bool} (h : ∀ t, t < 8 → g t = g' t) :
    byteOfBits g = byteOfBits g' := by
  unfold byteOfBits
  rw [h 0 (by omega), h 1 (by omega), h 2 (by omega), h 3 (by omega),
      h 4 (by omega), h 5 (by omega), h 6 (by omega), h 7 (by omega)]

/-! ### Per-factor table lemmas (exhaustive over one input byte) -/

theorem dbl_bits : ∀ x : Nat, x < 256 → ∀ r : Nat, r < 16 →
    Nat.testBit (if r / 8 = 0 then dbl.getD ((x &&& 0xF0) >>> 4) 0
                 else dbl.getD (x &&& 0x0F) 0) (7 - r % 8) =
    Nat.testBit x (7 - r / 2) := by decide

theorem trp_bits : ∀ x : Nat, x < 256 → ∀ r : Nat, r < 24 →
    Nat.testBit (if r / 8 = 0 then trp1.getD ((x &&& 0xF0) >>> 5) 0
                 else if r / 8 = 1 then trp2.getD ((x >>> 2) &&& 0x0F) 0
                 else trp3.getD (x &&& 0x07) 0) (7 - r % 8) =
    Nat.testBit x (7 - r / 3) := by decide

theorem quin_bits : ∀ x : Nat, x < 256 → ∀ r : Nat, r < 40 →
    Nat.testBit
      (if r / 8 = 0 then (pair.getD ((x >>> 6) &&& 0x03) 0 >>> 5) % 256
       else if r / 8 = 1 then quin2.getD ((x >>> 4) &&& 0x07) 0
       else if r / 8 = 2 then (pair.getD ((x >>> 3) &&& 0x03) 0 >>> 4) % 256
       else if r / 8 = 3 then quin4.getD ((x >>> 1) &&& 0x07) 0
       else (pair.getD (x &&& 0x03) 0 >>> 3) % 256) (7 - r % 8) =
    Nat.testBit x (7 - r / 5) := by decide

theorem pair_shift : ∀ (b1 b0 : Bool) (o : Nat), o < 8 → 1 ≤ o →
    (pair.getD (2 * b1.toNat + b0.toNat) 0 >>> o) &&& 0xFF =
    byteOfBits8 (if 0 < o then b1 else b0) (if 1 < o then b1 else b0)
      (if 2 < o then b1 else b0) (if 3 < o then b1 else b0)
      (if 4 < o then b1 else b0) (if 5 < o then b1 else b0)
      (if 6 < o then b1 else b0) (if 7 < o then b1 else b0) := by decide

/-! ### The general per-output-byte formula -/

theorem span_lt (f m : Nat) (hf : f = 4 ∨ 6 ≤ f) : m * 8 % f + 7 < 2 * f := by
  rcases hf with rfl | hf
  · omega
  · rcases Nat.lt_or_ge f 7 with h7 | h7
    · have h6 : f = 6 := by omega
      subst h6; omega
    · have := Nat.mod_lt (m * 8) (show 0 < f by omega)
      omega

theorem bit_lt_eight (f m : Nat) (hm : m < f) : m * 8 / f < 8 :=
  (Nat.div_lt_iff_lt_mul (by omega)).mpr (by omega)

theorem bit_le_six (f m : Nat) (hm : m < f) (ho : f - m * 8 % f < 8) :
    m * 8 / f ≤ 6 := by
  by_contra hcon
  have h7 : f * 7 ≤ f * (m * 8 / f) := Nat.mul_le_mul_left f (by omega)
  have key : f * 7 + m * 8 % f ≤ m * 8 :=
    le_of_le_of_eq (Nat.add_le_add_right h7 _) (Nat.div_add_mod (m * 8) f)
  generalize hr : m * 8 % f = r at key ho
  omega

theorem generalOutByte_eq (f : Nat) (hf : f = 4 ∨ 6 ≤ f) (row : Nat → Nat)
    (c : Nat) :
    generalOutByte f row c =
      byteOfBits (fun t => rowBitF row ((8 * c + t) / f)) := by
  have hf0 : 0 < f := by rcases hf with rfl | h <;> omega
  obtain ⟨q, m, hm, rfl⟩ : ∃ q m, m < f ∧ c = f * q + m :=
    ⟨c / f, c % f, Nat.mod_lt _ hf0, (Nat.div_add_mod c f).symm⟩
  have hcm : (f * q + m) % f = m := by
    rw [Nat.mul_add_mod, Nat.mod_eq_of_lt hm]
  have hcd : (f * q + m) / f = q := by
    rw [Nat.mul_add_div hf0, Nat.div_eq_of_lt hm, Nat.add_zero]
  unfold generalOutByte
  rw [hcm, hcd]
  set s := m * 8 / f with hs_def
  set r := m * 8 % f with hr_def
  have hdm : f * s + r = m * 8 := Nat.div_add_mod (m * 8) f
  have hs8 : s < 8 := bit_lt_eight f m hm
  have hrf : r < f := Nat.mod_lt _ hf0
  have hsrc : ∀ t : Nat, (8 * (f * q + m) + t) / f = 8 * q + (m * 8 + t) / f := by
    intro t
    have h1 : 8 * (f * q + m) + t = f * (8 * q) + (m * 8 + t) := by ring
    rw [h1, Nat.mul_add_div hf0]
  have hlow : ∀ t : Nat, r + t < f → (m * 8 + t) / f = s := by
    intro t ht
    have h1 : m * 8 + t = f * s + (r + t) := by
      rw [← hdm, Nat.add_assoc]
    rw [h1, Nat.mul_add_div hf0, Nat.div_eq_of_lt ht, Nat.add_zero]
  have hhigh : ∀ t : Nat, f ≤ r + t → r + t < 2 * f → (m * 8 + t) / f = s + 1 := by
    intro t ht1 ht2
    have h1 : m * 8 + t = f * (s + 1) + (r + t - f) := by
      have hdm' := hdm
      generalize hX : f * s = X at hdm'
      rw [show f * (s + 1) = X + f by rw [Nat.mul_succ, hX]]
      omega
    rw [h1, Nat.mul_add_div hf0, Nat.div_eq_of_lt (by omega), Nat.add_zero]
  have hbyte : ∀ p : Nat, p < 8 →
      rowBitF row (8 * q + p) = Nat.testBit (row q) (7 - p) := by
    intro p hp
    unfold rowBitF
    rw [show (8 * q + p) / 8 = q by omega, show (8 * q + p) % 8 = p by omega]
  by_cases hoff : 8 ≤ f - r
  · rw [if_pos hoff]
    have hbit : ∀ t : Nat, t < 8 →
        rowBitF row ((8 * (f * q + m) + t) / f) = Nat.testBit (row q) (7 - s) := by
      intro t ht
      rw [hsrc t, hlow t (by omega)]
      exact hbyte s hs8
    simp only [byteOfBits]
    rw [hbit 0 (by omega), hbit 1 (by omega), hbit 2 (by omega), hbit 3 (by omega),
        hbit 4 (by omega), hbit 5 (by omega), hbit 6 (by omega), hbit 7 (by omega)]
    rw [and_one_eq_toNat]
    cases hb : Nat.testBit (row q) (7 - s) <;> decide
  · rw [if_neg hoff]
    push_neg at hoff
    have hs6 : s ≤ 6 := bit_le_six f m hm hoff
    have hspan : r + 7 < 2 * f := by
      have := span_lt f m hf
      omega
    have hbit : ∀ t : Nat, t < 8 →
        rowBitF row ((8 * (f * q + m) + t) / f) =
          if t < f - r then Nat.testBit (row q) (7 - s)
          else Nat.testBit (row q) (6 - s) := by
      intro t ht
      rw [hsrc t]
      by_cases htlt : t < f - r
      · rw [if_pos htlt, hlow t (by omega)]
        exact hbyte s hs8
      · rw [if_neg htlt, hhigh t (by omega) (by omega), hbyte (s + 1) (by omega)]
        congr 1
        omega
    simp only [byteOfBits]
    rw [hbit 0 (by omega), hbit 1 (by omega), hbit 2 (by omega), hbit 3 (by omega),
        hbit 4 (by omega), hbit 5 (by omega), hbit 6 (by omega), hbit 7 (by omega)]
    rw [and_three_eq, show 6 - s + 1 = 7 - s by omega]
    exact pair_shift (Nat.testBit (row q) (7 - s)) (Nat.testBit (row q) (6 - s))
      (f - r) (by omega) (by omega)

/-! ### Cleanup of the final partial byte -/

theorem cleanRowF_lt_256 (w : Nat) (row : Nat → Nat) (h : ∀ i, row i < 256) :
    ∀ i, cleanRowF w row i < 256 := by
  intro i
  unfold cleanRowF
  by_cases hw : w % 8 > 0
  · rw [if_pos hw]
    by_cases hb : i = pbm_packed_bytes w - 1
    · simp only [hb, if_pos]
      calc row (pbm_packed_bytes w - 1) >>> (8 - w % 8) <<< (8 - w % 8)
          = row (pbm_packed_bytes w - 1) / 2 ^ (8 - w % 8) * 2 ^ (8 - w % 8) := by
            rw [Nat.shiftRight_eq_div_pow, Nat.shiftLeft_eq]
        _ ≤ row (pbm_packed_bytes w - 1) := Nat.div_mul_le_self _ _
        _ < 256 := h _
    · rw [if_neg hb]
      exact h i
  · rw [if_neg hw]
    exact h i

theorem clean_bit (w : Nat) (row : Nat → Nat) (i : Nat) (hi : i < w) :
    rowBitF (cleanRowF w row) i = rowBitF row i := by
  unfold rowBitF cleanRowF
  by_cases hw : w % 8 > 0
  · rw [if_pos hw]
    by_cases hb : i / 8 = pbm_packed_bytes w - 1
    · simp only [hb, if_pos]
      have hlt : 8 - w % 8 ≤ 7 - i % 8 := by
        unfold pbm_packed_bytes at hb
        omega
      rw [Nat.testBit_shiftLeft, Nat.testBit_shiftRight]
      rw [show 8 - w % 8 + (7 - i % 8 - (8 - w % 8)) = 7 - i % 8 by omega]
      simp [hlt]
    · rw [if_neg hb]
  · rw [if_neg hw]

theorem cleanRowF_eq_self (w : Nat) (row : Nat → Nat)
    (hpad : ∀ i, w ≤ i → rowBitF row i = false) :
    cleanRowF w row = row := by
  unfold cleanRowF
  by_cases hw : w % 8 > 0
  · rw [if_pos hw]
    funext i
    by_cases hb : i = pbm_packed_bytes w - 1
    · simp only [hb, if_pos]
      apply Nat.eq_of_testBit_eq
      intro p
      by_cases hp : 8 - w % 8 ≤ p
      · rw [Nat.testBit_shiftLeft, Nat.testBit_shiftRight]
        rw [show 8 - w % 8 + (p - (8 - w % 8)) = p by omega]
        simp [hp]
      · have hj : w ≤ 8 * (pbm_packed_bytes w - 1) + (7 - p) := by
          unfold pbm_packed_bytes
          omega
        have h2 := hpad (8 * (pbm_packed_bytes w - 1) + (7 - p)) hj
        unfold rowBitF at h2
        rw [show (8 * (pbm_packed_bytes w - 1) + (7 - p)) / 8 =
              pbm_packed_bytes w - 1 by omega,
            show 7 - (8 * (pbm_packed_bytes w - 1) + (7 - p)) % 8 = p by omega] at h2
        rw [Nat.testBit_shiftLeft]
        simp [hp, h2]
    · rw [if_neg hb]
  · rw [if_neg hw]

/-! ### Unfolding the dispatch of enlargePbmRowHorizontally -/

theorem enlarge_one (inrow out : Nat → Nat) (icc occ : Nat) :
    enlargePbmRowHorizontally inrow icc occ 1 out = out := by
  unfold enlargePbmRowHorizontally
  norm_num

theorem enlarge_two (inrow out : Nat → Nat) (icc occ j : Nat) (hj : j < 2 * icc) :
    enlargePbmRowHorizontally inrow icc occ 2 out j =
    if j % 2 = 0 then dbl.getD ((inrow (j / 2) &&& 0xF0) >>> 4) 0
    else dbl.getD (inrow (j / 2) &&& 0x0F) 0 := by
  unfold enlargePbmRowHorizontally
  norm_num [hj]

theorem enlarge_three (inrow out : Nat → Nat) (icc occ j : Nat) (hj : j < 3 * icc) :
    enlargePbmRowHorizontally inrow icc occ 3 out j =
    if j % 3 = 0 then trp1.getD ((inrow (j / 3) &&& 0xF0) >>> 5) 0
    else if j % 3 = 1 then trp2.getD ((inrow (j / 3) >>> 2) &&& 0x0F) 0
    else trp3.getD (inrow (j / 3) &&& 0x07) 0 := by
  unfold enlargePbmRowHorizontally
  norm_num [hj]

theorem enlarge_five (inrow out : Nat → Nat) (icc occ j : Nat) (hj : j < 5 * icc) :
    enlargePbmRowHorizontally inrow icc occ 5 out j =
    if j % 5 = 0 then (pair.getD ((inrow (j / 5) >>> 6) &&& 0x03) 0 >>> 5) % 256
    else if j % 5 = 1 then quin2.getD ((inrow (j / 5) >>> 4) &&& 0x07) 0
    else if j % 5 = 2 then (pair.getD ((inrow (j / 5) >>> 3) &&& 0x03) 0 >>> 4) % 256
    else if j % 5 = 3 then quin4.getD ((inrow (j / 5) >>> 1) &&& 0x07) 0
    else (pair.getD (inrow (j / 5) &&& 0x03) 0 >>> 3) % 256 := by
  unfold enlargePbmRowHorizontally
  norm_num [hj]

theorem enlarge_general (inrow out : Nat → Nat) (icc occ j f : Nat)
    (h1 : f ≠ 1) (h2 : f ≠ 2) (h3 : f ≠ 3) (h5 : f ≠ 5) :
    enlargePbmRowHorizontally inrow icc occ f out j =
    if j < occ then generalOutByte f inrow j else out j := by
  unfold enlargePbmRowHorizontally
  rw [if_neg h1, if_neg h2, if_neg h3, if_neg h5]

theorem flatten_map_replicate_getElem {β γ : Type} (f : Nat) (g : β → γ) :
    ∀ (L : List β) (r k : Nat) (b : β), k < f → L[r]? = some b →
      ((L.map (fun x => List.replicate f (g x))).flatten)[r * f + k]? = some (g b) := by
  intro L
  induction L with
  | nil => intro r k b _ hb; simp at hb
  | cons a L ih =>
    intro r k b hk hb
    cases r with
    | zero =>
      have hab : a = b := by simpa using hb
      subst hab
      simp only [List.map_cons, List.flatten_cons, Nat.zero_mul, Nat.zero_add]
      rw [List.getElem?_append_left (by simpa using hk)]
      exact List.getElem?_replicate_of_lt hk
    | succ r' =>
      have hb' : L[r']? = some b := by simpa using hb
      simp only [List.map_cons, List.flatten_cons]
      have hidx : (r' + 1) * f + k = (List.replicate f (g a)).length + (r' * f + k) := by
        rw [List.length_replicate, Nat.succ_mul]
        ring
      rw [hidx, List.getElem?_append_right (Nat.le_add_right _ _),
        Nat.add_sub_cancel_left]
      exact ih r' k b hk hb'

/-! ### The claims -/

/-- C3: for every width >= 1 and height >= 1, validateComputableDimensions
accepts iff factor * max(width, height) <= maxWidthHeight (INT_MAX - 2);
equivalently it computes maxFactor = maxWidthHeight / max(height, width) with
integer division and fails exactly when factor > maxFactor, so factor =
maxFactor is accepted and factor = maxFactor + 1 is rejected. -/
theorem claim_C3_dimension_validator (w h f : Nat) (hw : 1 ≤ w) (hh : 1 ≤ h) :
    (validateComputableDimensions w h f = true ↔ f * max w h ≤ maxWidthHeight)
    ∧ validateComputableDimensions w h (maxWidthHeight / max h w) = true
    ∧ validateComputableDimensions w h (maxWidthHeight / max h w + 1) = false := by
  have hmax : 0 < max h w := by omega
  unfold validateComputableDimensions
  refine ⟨?_, ?_, ?_⟩
  · rw [decide_eq_true_iff, Nat.le_div_iff_mul_le hmax, Nat.max_comm h w]
  · rw [decide_eq_true_iff]
  · rw [decide_eq_false_iff_not]
    omega

/-- Witness for C3 at width 1, height 1, factor 7. -/
theorem claim_C3_witness :
    (1 ≤ 1) ∧ (1 ≤ 1) ∧
    ((validateComputableDimensions 1 1 7 = true ↔ 7 * max 1 1 ≤ maxWidthHeight)
     ∧ validateComputableDimensions 1 1 (maxWidthHeight / max 1 1) = true
     ∧ validateComputableDimensions 1 1 (maxWidthHeight / max 1 1 + 1) = false) :=
  ⟨le_refl 1, le_refl 1, claim_C3_dimension_validator 1 1 7 (le_refl 1) (le_refl 1)⟩

/-- C7: whenever the scale factor fails dimension validation
(factor * max(width, height) exceeds maxWidthHeight), the run's output trace
is exactly the fatal error: no header and no row event is ever produced. -/
theorem claim_C7_no_output_on_overflow (w h f : Nat) (outInit : Nat → Nat)
    (inRows : List (Nat → Nat)) (hw : 1 ≤ w) (hh : 1 ≤ h)
    (hover : maxWidthHeight < f * max w h) :
    mainPbm w h f outInit inRows = [PbmEvent.fatal]
    ∧ (∀ c r, PbmEvent.header c r ∉ mainPbm w h f outInit inRows)
    ∧ (∀ bs, PbmEvent.row bs ∉ mainPbm w h f outInit inRows) := by
  have hmax : 0 < max h w := by omega
  have hcond : maxWidthHeight / max h w < f := by
    rw [Nat.div_lt_iff_lt_mul hmax]
    calc maxWidthHeight < f * max w h := hover
      _ = f * max h w := by rw [Nat.max_comm]
  have htr : mainPbm w h f outInit inRows = [PbmEvent.fatal] := by
    unfold mainPbm
    rw [if_pos hcond]
  refine ⟨htr, ?_, ?_⟩ <;> simp [htr]

/-- Witness for C7: the spec scenario width 100000, height 1, with a factor
whose product with the width exceeds maxWidthHeight. -/
theorem claim_C7_witness :
    (1 ≤ 100000) ∧ (1 ≤ 1) ∧ (maxWidthHeight < 21475 * max 100000 1) ∧
    (mainPbm 100000 1 21475 (fun _ => 0) [] = [PbmEvent.fatal]
     ∧ (∀ c r, PbmEvent.header c r ∉ mainPbm 100000 1 21475 (fun _ => 0) [])
     ∧ (∀ bs, PbmEvent.row bs ∉ mainPbm 100000 1 21475 (fun _ => 0) [])) :=
  ⟨by norm_num, le_refl 1, by norm_num [maxWidthHeight, INT_MAX],
   claim_C7_no_output_on_overflow 100000 1 21475 (fun _ => 0) [] (by norm_num)
     (le_refl 1) (by norm_num [maxWidthHeight, INT_MAX])⟩

/-- C9 counterexample: the claim says every argument value below 1 (zero or
negative) fails caller-level validation, but atoi's int result is stored
into an unsigned field first, so -1 becomes 4294967295 and passes the
`< 1` test: parseScaleFactorArg (-1) succeeds instead of failing. -/
theorem claim_C9_counterexample :
    parseScaleFactorArg (-1) = Except.ok 4294967295 := by
  unfold parseScaleFactorArg intToUnsigned
  have hv : ((-1 : Int) % 4294967296).toNat = 4294967295 := by decide
  rw [hv, if_neg (by norm_num)]

/-- C9 amended: for an atoi result in int range, caller-level validation
fails with the InvalidScaleFactor error exactly when the value is 0; negative
values wrap to large unsigned factors and pass this check (they are only
caught later by dimension validation). -/
theorem claim_C9_amended (v : Int) (hlo : -(2 ^ 31) ≤ v) (hhi : v < 2 ^ 31) :
    (∃ e, parseScaleFactorArg v = Except.error e) ↔ v = 0 := by
  unfold parseScaleFactorArg intToUnsigned
  have key : ((v % 4294967296).toNat < 1) ↔ v = 0 := by omega
  constructor
  · rintro ⟨e, he⟩
    by_cases hc : (v % 4294967296).toNat < 1
    · exact key.mp hc
    · rw [if_neg hc] at he
      simp at he
  · intro h0
    subst h0
    exact ⟨_, by rw [if_pos (key.mpr rfl)]⟩

/-- Witness for the amended C9 at argument value 0. -/
theorem claim_C9_witness :
    (-(2 ^ 31) ≤ (0 : Int)) ∧ ((0 : Int) < 2 ^ 31) ∧
    ((∃ e, parseScaleFactorArg 0 = Except.error e) ↔ (0 : Int) = 0) :=
  ⟨by norm_num, by norm_num, claim_C9_amended 0 (by norm_num) (by norm_num)⟩

/-- C4 counterexample: for factor 5 and width 1 the exact packed output
length is 1 byte, yet the factor-5 table routine writes bytes 2, 3 and 4 --
three and four bytes past the exact length, so neither "at most one byte
past" nor a slack of ceil(5/8)+1 = 2 extra bytes is enough. -/
theorem claim_C4_counterexample :
    pbm_packed_bytes (1 * 5) = 1
    ∧ enlargePbmRowHorizontally (fun _ => 0xFF) (pbm_packed_bytes 1)
        (pbm_packed_bytes (1 * 5)) 5 (fun _ => 0) 2 = 0xFF
    ∧ enlargePbmRowHorizontally (fun _ => 0xFF) (pbm_packed_bytes 1)
        (pbm_packed_bytes (1 * 5)) 5 (fun _ => 0) 3 = 0xFF
    ∧ enlargePbmRowHorizontally (fun _ => 0xFF) (pbm_packed_bytes 1)
        (pbm_packed_bytes (1 * 5)) 5 (fun _ => 0) 4 = 0xFF := by
  refine ⟨rfl, ?_, ?_, ?_⟩ <;> decide

/-- C4 amended: the table-driven routines for factors 2, 3, 5 write only
below factor * ceil(width/8), which exceeds the exact packed output length
by at most factor - ceil(factor/8) bytes (1, 2 and 4 bytes for factors 2, 3
and 5); hence an over-allocation of 4 extra bytes (as the caller's 32-bit
slack provides) is sufficient to contain every byte they write. -/
theorem enlarge_table_out (f : Nat) (hf : f = 2 ∨ f = 3 ∨ f = 5)
    (inrow out : Nat → Nat) (icc occ j : Nat) (hj : f * icc ≤ j) :
    enlargePbmRowHorizontally inrow icc occ f out j = out j := by
  unfold enlargePbmRowHorizontally
  rcases hf with rfl | rfl | rfl
  · rw [if_neg (by decide : ¬(2 : Nat) = 1), if_pos (by decide : (2 : Nat) = 2)]
    exact if_neg (by omega)
  · rw [if_neg (by decide : ¬(3 : Nat) = 1), if_neg (by decide : ¬(3 : Nat) = 2),
        if_pos (by decide : (3 : Nat) = 3)]
    exact if_neg (by omega)
  · rw [if_neg (by decide : ¬(5 : Nat) = 1), if_neg (by decide : ¬(5 : Nat) = 2),
        if_neg (by decide : ¬(5 : Nat) = 3), if_pos (by decide : (5 : Nat) = 5)]
    exact if_neg (by omega)

theorem claim_C4_amended (f w j : Nat) (hf : f = 2 ∨ f = 3 ∨ f = 5)
    (row out : Nat → Nat) (hj : pbm_packed_bytes (w * f) + 4 ≤ j) :
    enlargePbmRowHorizontally row (pbm_packed_bytes w) (pbm_packed_bytes (w * f))
        f out j = out j
    ∧ f * pbm_packed_bytes w ≤ pbm_packed_bytes (w * f) + (f - pbm_packed_bytes f) := by
  have hfi : f * pbm_packed_bytes w ≤
      pbm_packed_bytes (w * f) + (f - pbm_packed_bytes f) := by
    unfold pbm_packed_bytes
    rcases hf with rfl | rfl | rfl <;> omega
  have hsl : f - pbm_packed_bytes f ≤ 4 := by
    unfold pbm_packed_bytes
    rcases hf with rfl | rfl | rfl <;> omega
  refine ⟨?_, hfi⟩
  apply enlarge_table_out f hf
  exact le_trans hfi (le_trans (Nat.add_le_add_left hsl _) hj)

/-- Witness for the amended C4 at factor 5, width 1, byte index 5. -/
theorem claim_C4_witness :
    ((5 : Nat) = 2 ∨ (5 : Nat) = 3 ∨ (5 : Nat) = 5)
    ∧ pbm_packed_bytes (1 * 5) + 4 ≤ 5
    ∧ (enlargePbmRowHorizontally (fun _ => 0xFF) (pbm_packed_bytes 1)
          (pbm_packed_bytes (1 * 5)) 5 (fun _ => 7) 5 = 7
       ∧ 5 * pbm_packed_bytes 1 ≤ pbm_packed_bytes (1 * 5) + (5 - pbm_packed_bytes 5)) :=
  ⟨by norm_num, by decide,
   claim_C4_amended 5 1 5 (by norm_num) (fun _ => 0xFF) (fun _ => 7) (by decide)⟩

/-- C5 counterexample: the 8-pixel row 10110000 (byte 0xB0) enlarged by
factor 2 does not produce 1100110000000000 (bytes 0xCC 0x00) as the claim
states. -/
theorem claim_C5_counterexample :
    transformPbmRow 8 2 (fun i => if i = 0 then 0xB0 else 0) (fun _ => 0)
      ≠ [0xCC, 0x00] := by decide

/-- C5 amended: the 8-pixel row 10110000 enlarged by factor 2 produces the
16-bit row 1100111100000000 (bytes 0xCF 0x00), each input bit doubled. -/
theorem claim_C5_factor2_example :
    transformPbmRow 8 2 (fun i => if i = 0 then 0xB0 else 0) (fun _ => 0)
      = [0xCF, 0x00] := by decide

/-- C8: enlarging with scale factor 1 applies no transformation: the
dispatch routine leaves the output buffer exactly as passed (case 1 is a
no-op break), and since enlargePbm points the output row at the input row
buffer instead of allocating one, the row written is the input row itself
(bit-identical, given that its trailing padding bits are zero so the
in-place padding cleanup leaves it unchanged). -/
theorem claim_C8_factor1_identity (w : Nat) (row outInit : Nat → Nat)
    (hpad : ∀ i, w ≤ i → rowBitF row i = false) :
    (∀ icc occ out, enlargePbmRowHorizontally row icc occ 1 out = out)
    ∧ transformPbmRow w 1 row outInit = (List.range (pbm_packed_bytes w)).map row := by
  constructor
  · intro icc occ out
    exact enlarge_one row out icc occ
  · simp only [transformPbmRow]
    rw [cleanRowF_eq_self w row hpad, enlarge_one, mul_one, if_pos trivial]

/-- Witness for C8 at width 8 with row byte 0xB0. -/
theorem claim_C8_witness :
    (∀ i, 8 ≤ i → rowBitF testRowB0 i = false)
    ∧ ((∀ icc occ out,
          enlargePbmRowHorizontally testRowB0 icc occ 1 out = out)
       ∧ transformPbmRow 8 1 testRowB0 (fun _ => 0) =
           (List.range (pbm_packed_bytes 8)).map testRowB0) :=
  ⟨testRowB0_pad,
   claim_C8_factor1_identity 8 testRowB0 (fun _ => 0) testRowB0_pad⟩

/-- C10: on the general per-output-byte path (factors 4 and >= 6), every
access is in bounds with no slack: each output byte index c below
ceil(width*factor/8) reads only input byte c/factor, which is below
ceil(width/8); bytes at or beyond ceil(width*factor/8) are never written
(the buffer keeps its previous contents there); and in the two-source-bit
branch the source bit position (c % factor)*8/factor is at most 6, so the
shift amounts 6-bit and the right shift by bitSpan < 8 are well defined. -/
theorem claim_C10_general_path_bounds (f w : Nat) (hf : f = 4 ∨ 6 ≤ f)
    (hw : 1 ≤ w) :
    (∀ c, c < pbm_packed_bytes (w * f) → c / f < pbm_packed_bytes w)
    ∧ (∀ row out j, pbm_packed_bytes (w * f) ≤ j →
        enlargePbmRowHorizontally row (pbm_packed_bytes w)
          (pbm_packed_bytes (w * f)) f out j = out j)
    ∧ (∀ c, c < pbm_packed_bytes (w * f) →
        f - c % f * 8 % f < 8 → c % f * 8 / f ≤ 6) := by
  have hf0 : 0 < f := by rcases hf with rfl | h <;> omega
  have hne : f ≠ 1 ∧ f ≠ 2 ∧ f ≠ 3 ∧ f ≠ 5 := by
    rcases hf with rfl | h <;> exact ⟨by omega, by omega, by omega, by omega⟩
  refine ⟨?_, ?_, ?_⟩
  · intro c hc
    obtain ⟨w', rfl⟩ : ∃ w', w = w' + 1 := ⟨w - 1, by omega⟩
    have h1 : c ≤ (w' * f + (f - 1)) / 8 := by
      unfold pbm_packed_bytes at hc
      rw [show (w' + 1) * f = w' * f + f by ring] at hc
      generalize w' * f = X at hc ⊢
      omega
    have h2 : c / f ≤ (w' * f + (f - 1)) / 8 / f := Nat.div_le_div_right h1
    have h3 : (w' * f + (f - 1)) / 8 / f = (w' * f + (f - 1)) / f / 8 := by
      rw [Nat.div_div_eq_div_mul, Nat.div_div_eq_div_mul, Nat.mul_comm 8 f]
    have h4 : (w' * f + (f - 1)) / f = w' := by
      rw [Nat.mul_comm w' f, Nat.mul_add_div hf0, Nat.div_eq_of_lt (by omega),
        Nat.add_zero]
    rw [h3, h4] at h2
    unfold pbm_packed_bytes
    generalize hY : c / f = Y at h2 ⊢
    omega
  · intro row out j hj
    rw [enlarge_general row out _ _ j f hne.1 hne.2.1 hne.2.2.1 hne.2.2.2]
    exact if_neg (by omega)
  · intro c hc ho
    exact bit_le_six f (c % f) (Nat.mod_lt _ hf0) ho

/-- Witness for C10 at factor 4, width 1. -/
theorem claim_C10_witness :
    ((4 : Nat) = 4 ∨ 6 ≤ (4 : Nat)) ∧ (1 ≤ 1) ∧
    ((∀ c, c < pbm_packed_bytes (1 * 4) → c / 4 < pbm_packed_bytes 1)
     ∧ (∀ row out j, pbm_packed_bytes (1 * 4) ≤ j →
         enlargePbmRowHorizontally row (pbm_packed_bytes 1)
           (pbm_packed_bytes (1 * 4)) 4 out j = out j)
     ∧ (∀ c, c < pbm_packed_bytes (1 * 4) →
         4 - c % 4 * 8 % 4 < 8 → c % 4 * 8 / 4 ≤ 6)) :=
  ⟨Or.inl rfl, le_refl 1,
   claim_C10_general_path_bounds 4 1 (Or.inl rfl) (le_refl 1)⟩

/-- C1: for every scale factor not in \x7b1, 2, 3, 5\x7d and every packed
row with zero trailing padding bits, the general per-output-byte path of
enlargePbmRowHorizontally produces, for every output byte index below
ceil(width*factor/8), exactly the byte the naive per-bit replication
reference (each input bit repeated factor consecutive times, MSB first)
produces. -/
theorem claim_C1_general_formula_correct (f w : Nat) (row out : Nat → Nat)
    (h1 : f ≠ 1) (h2 : f ≠ 2) (h3 : f ≠ 3) (h5 : f ≠ 5)
    (hpad : ∀ i, w ≤ i → rowBitF row i = false)
    (c : Nat) (hc : c < pbm_packed_bytes (w * f)) :
    enlargePbmRowHorizontally row (pbm_packed_bytes w) (pbm_packed_bytes (w * f))
        f out c = naiveByte w f row c := by
  rcases Nat.eq_zero_or_pos f with rfl | hf0
  · exfalso
    rw [Nat.mul_zero] at hc
    unfold pbm_packed_bytes at hc
    omega
  have hgen : f = 4 ∨ 6 ≤ f := by omega
  rw [enlarge_general row out _ _ c f h1 h2 h3 h5, if_pos hc,
    generalOutByte_eq f hgen row c]
  unfold naiveByte
  apply byteOfBits_congr
  intro t ht
  unfold naiveBit
  by_cases hlt : 8 * c + t < w * f
  · rw [if_pos hlt]
  · rw [if_neg hlt]
    apply hpad
    rw [Nat.le_div_iff_mul_le hf0]
    omega

/-- Witness for C1 at factor 4, width 1, row byte 0x80, output byte 0. -/
theorem claim_C1_witness :
    ((4 : Nat) ≠ 1) ∧ ((4 : Nat) ≠ 2) ∧ ((4 : Nat) ≠ 3) ∧ ((4 : Nat) ≠ 5)
    ∧ (∀ i, 1 ≤ i → rowBitF testRow80 i = false)
    ∧ (0 < pbm_packed_bytes (1 * 4))
    ∧ enlargePbmRowHorizontally testRow80
        (pbm_packed_bytes 1) (pbm_packed_bytes (1 * 4)) 4 (fun _ => 0) 0 =
      naiveByte 1 4 testRow80 0 :=
  ⟨by decide, by decide, by decide, by decide, testRow80_pad, by decide,
   claim_C1_general_formula_correct 4 1 testRow80 (fun _ => 0)
     (by decide) (by decide) (by decide) (by decide) testRow80_pad 0 (by decide)⟩

/-- C6: for every image and factor, the output row at index r*factor + k
(k < factor), i.e. every index in [r*factor, (r+1)*factor), is the single
transformed version of input row r -- on the packed PBM path and on the
generic path alike. -/
theorem claim_C6_vertical_replication {α : Type} (w f : Nat)
    (outInit : Nat → Nat) (pbmRows : List (Nat → Nat)) (genRows : List (Nat → α))
    (r k : Nat) (hk : k < f) :
    (∀ prow, pbmRows[r]? = some prow →
      (enlargePbm w f outInit pbmRows)[r * f + k]? =
        some (transformPbmRow w f prow outInit))
    ∧ (∀ grow, genRows[r]? = some grow →
      (enlargeGeneral w f genRows)[r * f + k]? =
        some (transformGeneralRow w f grow)) := by
  constructor
  · intro prow hp
    exact flatten_map_replicate_getElem f _ pbmRows r k prow hk hp
  · intro grow hg
    exact flatten_map_replicate_getElem f _ genRows r k grow hk hg

/-- Witness for C6: width 1, factor 2, one input row, output row index 1. -/
theorem claim_C6_witness :
    (1 < 2) ∧
    ((∀ prow, [fun _ => (0xFF : Nat)][0]? = some prow →
       (enlargePbm 1 2 (fun _ => 0) [fun _ => 0xFF])[0 * 2 + 1]? =
         some (transformPbmRow 1 2 prow (fun _ => 0)))
     ∧ (∀ grow, [fun _ => (3 : Nat)][0]? = some grow →
       (enlargeGeneral 1 2 [fun _ => (3 : Nat)])[0 * 2 + 1]? =
         some (transformGeneralRow 1 2 grow))) :=
  ⟨by norm_num,
   claim_C6_vertical_replication 1 2 (fun _ => 0) [fun _ => 0xFF]
     [fun _ => (3 : Nat)] 0 1 (by norm_num)⟩

/-- C2: for every packed row (bytes, with zero trailing padding), every
width, and every factor in \x7b1, 2, 3, 4, 5\x7d, the dispatched path of
enlargePbmRowHorizontally as driven by enlargePbm (input-row aliasing for 1,
tables dbl / trp1,trp2,trp3 / pair,quin2,quin4 for 2, 3, 5, general formula
for 4) produces the same meaningful output bits (the first width*factor
bits) as naive per-bit replication of the input row. -/
theorem claim_C2_dispatch_matches_naive (f w : Nat) (row outInit : Nat → Nat)
    (hf : f = 1 ∨ f = 2 ∨ f = 3 ∨ f = 4 ∨ f = 5)
    (hbytes : ∀ i, row i < 256)
    (hpad : ∀ i, w ≤ i → rowBitF row i = false)
    (j : Nat) (hj : j < w * f) :
    bitOfList (transformPbmRow w f row outInit) j = rowBitF row (j / f) := by
  have hcb : ∀ i, cleanRowF w row i < 256 := cleanRowF_lt_256 w row hbytes
  rcases hf with rfl | rfl | rfl | rfl | rfl
  · -- factor 1: output row aliases the (cleaned) input row
    simp only [transformPbmRow, bitOfList]
    have hj8 : j / 8 < pbm_packed_bytes (w * 1) := by
      unfold pbm_packed_bytes
      omega
    rw [getD_range_map _ _ _ hj8, enlarge_one, Nat.div_one]
    exact clean_bit w row j (by omega)
  · -- factor 2: dbl table
    simp only [transformPbmRow, bitOfList]
    have hj8 : j / 8 < pbm_packed_bytes (w * 2) := by
      unfold pbm_packed_bytes
      omega
    rw [getD_range_map _ _ _ hj8]
    rw [enlarge_two _ _ _ _ _
      (show j / 8 < 2 * pbm_packed_bytes w by unfold pbm_packed_bytes; omega)]
    rw [show j / 8 / 2 = j / 16 by rw [Nat.div_div_eq_div_mul]]
    rw [show j / 8 % 2 = j % 16 / 8 by omega]
    rw [show j % 8 = j % 16 % 8 by omega]
    rw [dbl_bits (cleanRowF w row (j / 16)) (hcb _) (j % 16) (by omega)]
    rw [← clean_bit w row (j / 2) (by omega)]
    unfold rowBitF
    rw [show j / 2 / 8 = j / 16 by rw [Nat.div_div_eq_div_mul]]
    rw [show j / 2 % 8 = j % 16 / 2 by omega]
  · -- factor 3: trp1/trp2/trp3 tables
    simp only [transformPbmRow, bitOfList]
    have hj8 : j / 8 < pbm_packed_bytes (w * 3) := by
      unfold pbm_packed_bytes
      omega
    rw [getD_range_map _ _ _ hj8]
    rw [enlarge_three _ _ _ _ _
      (show j / 8 < 3 * pbm_packed_bytes w by unfold pbm_packed_bytes; omega)]
    rw [show j / 8 / 3 = j / 24 by rw [Nat.div_div_eq_div_mul]]
    rw [show j / 8 % 3 = j % 24 / 8 by omega]
    rw [show j % 8 = j % 24 % 8 by omega]
    rw [trp_bits (cleanRowF w row (j / 24)) (hcb _) (j % 24) (by omega)]
    rw [← clean_bit w row (j / 3) (by omega)]
    unfold rowBitF
    rw [show j / 3 / 8 = j / 24 by rw [Nat.div_div_eq_div_mul]]
    rw [show j / 3 % 8 = j % 24 / 3 by omega]
  · -- factor 4: general formula
    simp only [transformPbmRow, bitOfList]
    have hj8 : j / 8 < pbm_packed_bytes (w * 4) := by
      unfold pbm_packed_bytes
      omega
    rw [getD_range_map _ _ _ hj8]
    rw [enlarge_general _ _ _ _ _ _ (by decide) (by decide) (by decide) (by decide),
      if_pos hj8]
    rw [generalOutByte_eq 4 (Or.inl rfl) (cleanRowF w row) (j / 8)]
    rw [testBit_byteOfBits _ (j % 8) (by omega)]
    show rowBitF (cleanRowF w row) ((8 * (j / 8) + j % 8) / 4) = rowBitF row (j / 4)
    rw [show 8 * (j / 8) + j % 8 = j by omega]
    exact clean_bit w row (j / 4) (by omega)
  · -- factor 5: pair/quin2/quin4 tables
    simp only [transformPbmRow, bitOfList]
    have hj8 : j / 8 < pbm_packed_bytes (w * 5) := by
      unfold pbm_packed_bytes
      omega
    rw [getD_range_map _ _ _ hj8]
    rw [enlarge_five _ _ _ _ _
      (show j / 8 < 5 * pbm_packed_bytes w by unfold pbm_packed_bytes; omega)]
    rw [show j / 8 / 5 = j / 40 by rw [Nat.div_div_eq_div_mul]]
    rw [show j / 8 % 5 = j % 40 / 8 by omega]
    rw [show j % 8 = j % 40 % 8 by omega]
    rw [quin_bits (cleanRowF w row (j / 40)) (hcb _) (j % 40) (by omega)]
    rw [← clean_bit w row (j / 5) (by omega)]
    unfold rowBitF
    rw [show j / 5 / 8 = j / 40 by rw [Nat.div_div_eq_div_mul]]
    rw [show j / 5 % 8 = j % 40 / 5 by omega]

/-- Witness for C2 at factor 2, width 8, row byte 0xB0, output bit 0. -/
theorem claim_C2_witness :
    ((2 : Nat) = 1 ∨ (2 : Nat) = 2 ∨ (2 : Nat) = 3 ∨ (2 : Nat) = 4 ∨ (2 : Nat) = 5)
    ∧ (∀ i, testRowB0 i < 256)
    ∧ (∀ i, 8 ≤ i → rowBitF testRowB0 i = false)
    ∧ (0 < 8 * 2)
    ∧ bitOfList (transformPbmRow 8 2 testRowB0 (fun _ => 0)) 0 =
        rowBitF testRowB0 (0 / 2) :=
  ⟨Or.inr (Or.inl rfl),
   fun i => by unfold testRowB0; split <;> norm_num,
   testRowB0_pad,
   by norm_num,
   claim_C2_dispatch_matches_naive 2 8 testRowB0 (fun _ => 0)
     (Or.inr (Or.inl rfl))
     (fun i => by unfold testRowB0; split <;> norm_num)
     testRowB0_pad 0 (by norm_num)⟩

end Pamenlarge
